import Mathlib

/-!
Verification of the cooperative round-robin fairness scheduler implemented in
`src/threads/thread-sync.py`.

The development has two layers:

1. A functional embedding of the counter registry of class `AppControlFlags`
   (the `_WORK_COUNTER` dictionary and its methods).  A Python `dict` is an
   insertion-ordered finite map; we embed it as an association list
   `List (String × Nat)` whose order is the insertion (registration) order,
   and each method as a Lean function translated from the method body.

2. An interleaving small-step semantics of the pool of `Job` threads,
   the shared condition variable, and the `handle_sigint` shutdown handler.
   Every region of code executed while holding the single condition lock is
   one atomic step; the toggle of the local `_active` field, which the code
   performs outside the lock, is its own step.
-/

namespace ThreadSync

/-- The `_WORK_COUNTER` dictionary of `AppControlFlags`: an insertion-ordered
map from thread name to completed-turn count. -/
abbrev Registry := List (String × Nat)

/-- Lookup of a key in the dictionary (`name in d` / `d[name]`). -/
def lookupCounter : Registry → String → Option Nat
  | [], _ => none
  | (k, v) :: rest, name => if k = name then some v else lookupCounter rest name

/-- The Python membership test `name in self._WORK_COUNTER`. -/
def containsKey (r : Registry) (name : String) : Bool :=
  (lookupCounter r name).isSome

/-- Python dictionary assignment `d[name] = v`: overwrites the entry in place
when the key is present (keeping its position), otherwise appends a new entry
at the end, as insertion-ordered dictionaries do. -/
def dictSet : Registry → String → Nat → Registry
  | [], name, v => [(name, v)]
  | (k, v0) :: rest, name, v =>
      if k = name then (k, v) :: rest else (k, v0) :: dictSet rest name v

/-- `AppControlFlags.add_counter`: the body is exactly
`self._WORK_COUNTER[name] = 0`. -/
def addCounter (r : Registry) (name : String) : Registry :=
  dictSet r name 0

/-- `AppControlFlags.get_counter`: `self._WORK_COUNTER.get(name, 0)`. -/
def getCounter (r : Registry) (name : String) : Nat :=
  (lookupCounter r name).getD 0

/-- `AppControlFlags.increment_counter`:
`if name in self._WORK_COUNTER: self._WORK_COUNTER[name] += 1`.
The recursion updates the (unique) matching entry in place and leaves the
dictionary unchanged when the key is absent. -/
def incrementCounter : Registry → String → Registry
  | [], _ => []
  | (k, v) :: rest, name =>
      if k = name then (k, v + 1) :: rest else (k, v) :: incrementCounter rest name

/-- Helper for `min_counter`: Python
`min(self._WORK_COUNTER.keys(), key=lambda k: self._WORK_COUNTER[k])`
scans the keys in insertion order and keeps the first key whose value is
strictly smaller than the running minimum, so the first occurrence of the
minimal value wins.  `minPair` returns that entry (key and value). -/
def minPair : Registry → Option (String × Nat)
  | [] => none
  | p :: rest =>
      match minPair rest with
      | none => some p
      | some q => if p.2 ≤ q.2 then some p else some q

/-- `AppControlFlags.min_counter` (its normal-return value; on an empty
dictionary the Python call raises, which `minCounterE` models). -/
def minCounter (r : Registry) : Option String :=
  (minPair r).map Prod.fst

/-- `AppControlFlags.min_counter` with the exceptional path made explicit:
Python `min` raises `ValueError` when the key view is empty. -/
def minCounterE (r : Registry) : Except String String :=
  match minCounter r with
  | some k => Except.ok k
  | none => Except.error "min() arg is an empty sequence"

/-- `AppControlFlags.increment_counter` with the exceptional path made
explicit: the body is a membership-guarded update and cannot raise, so the
result is always `Except.ok`. -/
def incrementCounterE (r : Registry) (name : String) : Except String Registry :=
  Except.ok (incrementCounter r name)

/-- `AppControlFlags.values_balanced`:
`values = set(self._WORK_COUNTER.values());
 return len(values) == 1 and next(iter(values)) > 0`.
The set of values has exactly one element iff deduplicating the value list
yields a singleton, and `next(iter(values))` is then that element. -/
def valuesBalanced (r : Registry) : Bool :=
  match (r.map Prod.snd).dedup with
  | [v] => decide (0 < v)
  | _ => false

/-- `AppControlFlags.get_all_values`: `return self._WORK_COUNTER.copy()` —
the returned mapping is a copy whose value equals the current dictionary. -/
def getAllValues (r : Registry) : Registry := r

/-- One grant of the turn, as performed by the winning iteration of
`Job.__waiting`: the turn goes to the registry minimum
(`self.name == self._control.min_counter()`) and that thread then runs
`self._control.increment_counter(name=self.name)`. -/
def grantStep (r : Registry) : Registry :=
  match minCounter r with
  | some k => incrementCounter r k
  | none => r

/-- The registry right after the pool spawns: every `Job.__init__` calls
`add_counter` once, in creation order, so each name is bound to 0. -/
def regInit (names : List String) : Registry :=
  names.map (fun nm => (nm, 0))

/-- A registry-mutating call of `AppControlFlags` (the read methods
`get_counter`, `min_counter`, `values_balanced` and `get_all_values` perform
no assignment to the dictionary, so they are embedded as pure functions and
do not occur here). -/
inductive RegOp where
  | add : String → RegOp
  | inc : String → RegOp
deriving DecidableEq

/-- Run one registry call. -/
def applyOp (r : Registry) : RegOp → Registry
  | RegOp.add name => addCounter r name
  | RegOp.inc name => incrementCounter r name

/-- Run a sequence of registry calls in order. -/
def applyOps (r : Registry) : List RegOp → Registry
  | [] => r
  | op :: rest => applyOps (applyOp r op) rest

/-- A call sequence never re-registers an id that is already present
(the intended use: ids are fresh uuid hex strings). -/
def freshAdds : Registry → List RegOp → Bool
  | _, [] => true
  | r, RegOp.add name :: rest => !containsKey r name && freshAdds (addCounter r name) rest
  | r, RegOp.inc name :: rest => freshAdds (incrementCounter r name) rest

/-- Shape of the registry reached by iterating `grantStep` from `regInit`:
the actors in `hi` have already been served in the current round (count
`q + 1`) and the actors in `lo` have not yet (count `q`). -/
def mkReg (q : Nat) (hi lo : List String) : Registry :=
  hi.map (fun nm => (nm, q + 1)) ++ lo.map (fun nm => (nm, q))

/-- Position of a `Job` thread in its `run` loop.  Each constructor is the
point reached after one atomic (lock-protected or lock-free) region:
`checking` is about to evaluate `__app_is_running`; `waiting` is inside the
`__waiting` loop (possibly blocked on the condition); `critical` is about to
toggle `_active` (it has claimed the turn); `releasing` is about to run
`__release_wait_flag`; `sleeping` is inside `time.sleep`; `done` has left
the loop. -/
inductive Phase where
  | checking | waiting | critical | releasing | sleeping | done
deriving DecidableEq

/-- Per-thread state: loop position and the local `_active` flag. -/
structure WorkerSt where
  phase : Phase
  active : Bool
deriving DecidableEq

/-- Shared state of the whole program: the workers, the `_WORK_COUNTER`
registry, the `wait` and `keep_running` flags of `AppControlFlags`, and
whether the main thread has already performed its one-shot starting
handshake (`app_control_flags.wait = False; condition_flag.notify_all()`). -/
structure Sys (n : Nat) where
  w : Fin n → WorkerSt
  reg : Registry
  wait : Bool
  keepRunning : Bool
  started : Bool

instance {n : Nat} : DecidableEq (Sys n) := by
  intro a b
  cases a; cases b
  exact decidable_of_iff _ (iff_of_eq (Sys.mk.injEq _ _ _ _ _ _ _ _ _ _)).symm

/-- Initial state: all `Job` threads created and registered (registration
happens in `Job.__init__`, in creation order, before the main thread opens
the gate; no worker can pass `__waiting` before the handshake because `wait`
is initially `True`), every worker about to check `keep_running`, every
`_active` flag `OFF`. -/
def initSys {n : Nat} (names : Fin n → String) : Sys n :=
  { w := fun _ => ⟨Phase.checking, false⟩
    reg := (List.finRange n).map (fun i => (names i, 0))
    wait := true
    keepRunning := true
    started := false }

/-- Interleaving semantics of `thread-sync.py`.  Every block executed while
holding `condition_flag` is one atomic step; `condition.wait()` inside
`__waiting` keeps the worker in phase `waiting` (a blocked-or-woken worker
simply has no enabled step until its exit condition holds, which
over-approximates the real wake-ups and so also covers spurious ones). -/
inductive Step {n : Nat} (names : Fin n → String) : Sys n → Sys n → Prop
  /-- `__app_is_running` returns `True`: enter `__waiting`. -/
  | checkTrue (s : Sys n) (i : Fin n) :
      (s.w i).phase = Phase.checking → s.keepRunning = true →
      Step names s { s with w := Function.update s.w i ⟨Phase.waiting, (s.w i).active⟩ }
  /-- `__app_is_running` returns `False`: leave the loop. -/
  | checkFalse (s : Sys n) (i : Fin n) :
      (s.w i).phase = Phase.checking → s.keepRunning = false →
      Step names s { s with w := Function.update s.w i ⟨Phase.done, (s.w i).active⟩ }
  /-- The winning iteration of `__waiting`: under the lock the worker sees
  `not self._control.wait` and `self.name == self._control.min_counter()`,
  leaves the loop, runs `increment_counter(self.name)` and sets
  `self._control.wait = True`. -/
  | claim (s : Sys n) (i : Fin n) :
      (s.w i).phase = Phase.waiting → s.wait = false →
      minCounter s.reg = some (names i) →
      Step names s { s with
        w := Function.update s.w i ⟨Phase.critical, (s.w i).active⟩
        reg := incrementCounter s.reg (names i)
        wait := true }
  /-- `self._active = not self._active`, outside the lock. -/
  | toggle (s : Sys n) (i : Fin n) :
      (s.w i).phase = Phase.critical →
      Step names s { s with w := Function.update s.w i ⟨Phase.releasing, !(s.w i).active⟩ }
  /-- `__release_wait_flag`: under the lock set `wait = False` and
  `notify_all()`. -/
  | release (s : Sys n) (i : Fin n) :
      (s.w i).phase = Phase.releasing →
      Step names s { s with
        w := Function.update s.w i ⟨Phase.sleeping, (s.w i).active⟩
        wait := false }
  /-- `time.sleep(STATE_CHANGE_DELAY)` returns: back to the loop head. -/
  | sleepDone (s : Sys n) (i : Fin n) :
      (s.w i).phase = Phase.sleeping →
      Step names s { s with w := Function.update s.w i ⟨Phase.checking, (s.w i).active⟩ }
  /-- The one-shot starting handshake of the main thread:
  `app_control_flags.wait = False; condition_flag.notify_all()`. -/
  | handshake (s : Sys n) :
      s.started = false →
      Step names s { s with wait := false, started := true }
  /-- `handle_sigint`: under the lock set `keep_running = False`.  Note that
  the handler performs no `notify_all`. -/
  | shutdown (s : Sys n) :
      s.keepRunning = true →
      Step names s { s with keepRunning := false }

/-- States the pool can reach from start. -/
def Reachable {n : Nat} (names : Fin n → String) (s : Sys n) : Prop :=
  Relation.ReflTransGen (Step names) (initSys names) s

/-- A phase inside the turn: from the successful return of `__waiting` up to
and including the pending `__release_wait_flag`.  The critical step (the
toggle of `_active`) happens only inside this region. -/
def phaseInCS : Phase → Bool
  | Phase.critical => true
  | Phase.releasing => true
  | _ => false

/-- The worker currently holds the turn. -/
def isInCS (ws : WorkerSt) : Bool := phaseInCS ws.phase

/-- Inductive invariant giving mutual exclusion: at most one worker holds
the turn; whenever one does, the `wait` flag is set; before the starting
handshake the gate is still closed and nobody holds the turn. -/
def MutexInv {n : Nat} (s : Sys n) : Prop :=
  (∀ i j : Fin n, isInCS (s.w i) = true → isInCS (s.w j) = true → i = j) ∧
  ((∃ i : Fin n, isInCS (s.w i) = true) → s.wait = true) ∧
  (s.started = false → s.wait = true ∧ ∀ i : Fin n, isInCS (s.w i) = false)

/-- Two concrete worker names (used to exhibit a reachable state). -/
def names2 : Fin 2 → String := fun i => if i = 0 then "a" else "b"

/-- Three concrete worker names, registered in the order a, b, c. -/
def names3 : Fin 3 → String := fun i => if i = 0 then "a" else if i = 1 then "b" else "c"

/-- The deadlocked state exhibited for the shutdown claim: every worker has
completed exactly one turn, worker a has observed `keep_running = False` and
exited, workers b and c are parked in `condition.wait()` inside `__waiting`,
and the registry minimum is the exited worker a. -/
def stuck3 : Sys 3 :=
  { w := fun i => if i = 0 then ⟨Phase.done, true⟩ else ⟨Phase.waiting, true⟩
    reg := [("a", 1), ("b", 1), ("c", 1)]
    wait := false
    keepRunning := false
    started := true }



lemma lookupCounter_dictSet_self (r : Registry) (name : String) (v : Nat) :
    lookupCounter (dictSet r name v) name = some v := by
  induction r with
  | nil => simp [dictSet, lookupCounter]
  | cons p rest ih =>
    obtain ⟨k, v0⟩ := p
    by_cases hk : k = name
    · subst hk; simp [dictSet, lookupCounter]
    · simp [dictSet, lookupCounter, hk, ih]

lemma lookupCounter_dictSet_other (r : Registry) (name k2 : String) (v : Nat)
    (hk : k2 ≠ name) :
    lookupCounter (dictSet r name v) k2 = lookupCounter r k2 := by
  induction r with
  | nil => simp [dictSet, lookupCounter, Ne.symm hk]
  | cons p rest ih =>
    obtain ⟨k, v0⟩ := p
    by_cases h1 : k = name
    · subst h1; simp [dictSet, lookupCounter, Ne.symm hk]
    · simp [dictSet, lookupCounter, h1, ih]

lemma dictSet_not_contains (r : Registry) (name : String) (v : Nat)
    (h : containsKey r name = false) :
    dictSet r name v = r ++ [(name, v)] := by
  induction r with
  | nil => simp [dictSet]
  | cons p rest ih =>
    obtain ⟨k, v0⟩ := p
    rw [containsKey, lookupCounter] at h
    by_cases h1 : k = name
    · rw [if_pos h1] at h; simp at h
    · rw [if_neg h1] at h
      simp [dictSet, h1]
      exact ih h

lemma lookupCounter_append_left (r l : Registry) (k : String) (v : Nat)
    (h : lookupCounter r k = some v) : lookupCounter (r ++ l) k = some v := by
  induction r with
  | nil => simp [lookupCounter] at h
  | cons p rest ih =>
    obtain ⟨k0, v0⟩ := p
    by_cases h1 : k0 = k
    · rw [lookupCounter, if_pos h1] at h
      simp [lookupCounter, h1, h]
    · rw [lookupCounter, if_neg h1] at h
      simp [lookupCounter, h1]
      exact ih h

lemma lookupCounter_incrementCounter_self (r : Registry) (name : String) (v : Nat)
    (h : lookupCounter r name = some v) :
    lookupCounter (incrementCounter r name) name = some (v + 1) := by
  induction r with
  | nil => simp [lookupCounter] at h
  | cons p rest ih =>
    obtain ⟨k, v0⟩ := p
    by_cases h1 : k = name
    · rw [lookupCounter, if_pos h1] at h
      injection h with h
      subst h1; subst h
      simp [incrementCounter, lookupCounter]
    · rw [lookupCounter, if_neg h1] at h
      simp [incrementCounter, lookupCounter, h1]
      exact ih h

lemma lookupCounter_incrementCounter_other (r : Registry) (name k2 : String)
    (hk : k2 ≠ name) :
    lookupCounter (incrementCounter r name) k2 = lookupCounter r k2 := by
  induction r with
  | nil => simp [incrementCounter]
  | cons p rest ih =>
    obtain ⟨k, v0⟩ := p
    by_cases h1 : k = name
    · subst h1; simp [incrementCounter, lookupCounter, Ne.symm hk]
    · simp [incrementCounter, lookupCounter, h1, ih]

lemma incrementCounter_not_contains (r : Registry) (name : String)
    (h : containsKey r name = false) :
    incrementCounter r name = r := by
  induction r with
  | nil => rfl
  | cons p rest ih =>
    obtain ⟨k, v0⟩ := p
    rw [containsKey, lookupCounter] at h
    by_cases h1 : k = name
    · rw [if_pos h1] at h; simp at h
    · rw [if_neg h1] at h
      simp [incrementCounter, h1]
      exact ih h

lemma incrementCounter_keys (r : Registry) (name : String) :
    (incrementCounter r name).map Prod.fst = r.map Prod.fst := by
  induction r with
  | nil => rfl
  | cons p rest ih =>
    obtain ⟨k, v0⟩ := p
    by_cases h1 : k = name
    · simp [incrementCounter, h1]
    · simp [incrementCounter, h1, ih]



lemma minPair_spec (r : Registry) (h : r ≠ []) :
    ∃ i : Nat, ∃ hi : i < r.length, minPair r = some r[i] ∧
      (∀ j : Nat, ∀ hj : j < r.length, r[i].2 ≤ r[j].2) ∧
      (∀ j : Nat, ∀ hj : j < r.length, j < i → r[i].2 < r[j].2) := by
  induction r with
  | nil => exact absurd rfl h
  | cons p rest ih =>
    rcases eq_or_ne rest [] with hrest | hrest
    · subst hrest
      refine ⟨0, by simp, by simp [minPair], ?_, ?_⟩
      · intro j hj
        have hj0 : j = 0 := by simp at hj; omega
        subst hj0
        simp
      · intro j hj hj0
        omega
    · obtain ⟨i, hi, hmin, hle, hfirst⟩ := ih hrest
      by_cases hcmp : p.2 ≤ rest[i].2
      · refine ⟨0, by simp, by simp [minPair, hmin, hcmp], ?_, ?_⟩
        · intro j hj
          cases j with
          | zero => simp
          | succ k =>
            simp only [List.getElem_cons_zero, List.getElem_cons_succ]
            exact le_trans hcmp (hle k (by simpa using hj))
        · intro j hj hj0
          omega
      · push_neg at hcmp
        refine ⟨i + 1, by simpa using hi, ?_, ?_, ?_⟩
        · simp [minPair, hmin, not_le.mpr hcmp]
        · intro j hj
          cases j with
          | zero =>
            simp only [List.getElem_cons_zero, List.getElem_cons_succ]
            exact le_of_lt hcmp
          | succ k =>
            simp only [List.getElem_cons_succ]
            exact hle k (by simpa using hj)
        · intro j hj hj0
          cases j with
          | zero =>
            simp only [List.getElem_cons_zero, List.getElem_cons_succ]
            exact hcmp
          | succ k =>
            simp only [List.getElem_cons_succ]
            exact hfirst k (by simpa using hj) (by omega)

/-- C4: for every non-empty registry, `min_counter` returns the id whose count
is the smallest, and when several ids share the smallest count it returns the
one registered first (the earliest position in the insertion-ordered
dictionary); in particular, with actors registered in order a, b, c, all at
count 0, the first turn goes to a. -/
theorem minCounter_first_min (r : Registry) (h : r ≠ []) :
    (∃ i : Nat, ∃ hi : i < r.length, minCounter r = some r[i].1 ∧
      (∀ j : Nat, ∀ hj : j < r.length, r[i].2 ≤ r[j].2) ∧
      (∀ j : Nat, ∀ hj : j < r.length, j < i → r[i].2 < r[j].2)) ∧
    minCounter [("a", 0), ("b", 0), ("c", 0)] = some "a" ∧
    grantStep [("a", 0), ("b", 0), ("c", 0)] = [("a", 1), ("b", 0), ("c", 0)] := by
  obtain ⟨i, hi, hmin, hle, hfirst⟩ := minPair_spec r h
  exact ⟨⟨i, hi, by simp [minCounter, hmin], hle, hfirst⟩, by decide, by decide⟩

/-- Witness for C4 at a concrete non-empty registry. -/
theorem minCounter_first_min_witness :
    minCounter [("a", 0), ("b", 0), ("c", 0)] = some "a" :=
  (minCounter_first_min [("x", 7)] (by decide)).2.1

/-- C5 counterexample: calling `add_counter` on an id that is already present
does not leave the existing count unchanged — the body
`self._WORK_COUNTER[name] = 0` resets the count to 0 (and the method contains
no logging), so the claim as stated is false. -/
theorem addCounter_existing_cex :
    addCounter [("a", 5)] "a" = [("a", 0)] ∧
    getCounter (addCounter [("a", 5)] "a") "a" = 0 := by decide

/-- C5 amended: `add_counter` binds the given id to count 0 unconditionally —
it inserts the id with count 0 when absent (appending it at the end of the
registration order) and resets the count of an already-present id to 0; other
entries are untouched. -/
theorem addCounter_sets_zero (r : Registry) (name k : String) (hk : k ≠ name) :
    lookupCounter (addCounter r name) name = some 0 ∧
    lookupCounter (addCounter r name) k = lookupCounter r k ∧
    (containsKey r name = false → addCounter r name = r ++ [(name, 0)]) :=
  ⟨lookupCounter_dictSet_self r name 0,
   lookupCounter_dictSet_other r name k 0 hk,
   fun h => dictSet_not_contains r name 0 h⟩

/-- Witness for C5 amended at a concrete registry. -/
theorem addCounter_sets_zero_witness :
    lookupCounter (addCounter [("a", 5)] "a") "a" = some 0 ∧
    lookupCounter (addCounter [("a", 5)] "a") "b" = lookupCounter [("a", 5)] "b" ∧
    (containsKey [("a", 5)] "a" = false → addCounter [("a", 5)] "a" = [("a", 5)] ++ [("a", 0)]) :=
  addCounter_sets_zero [("a", 5)] "a" "b" (by decide)

/-- C6 counterexample: `increment_counter` on an unregistered id returns
normally (it does not raise) and leaves the registry unchanged, so the claim
that it fails loudly is false. -/
theorem increment_unregistered_cex :
    incrementCounterE [("b", 3)] "a" = Except.ok [("b", 3)] ∧
    incrementCounter [("b", 3)] "a" = [("b", 3)] := by
  have h : incrementCounter [("b", 3)] "a" = [("b", 3)] := by decide
  exact ⟨by rw [incrementCounterE, h], h⟩

/-- C6 amended: `min_counter` on an empty registry does fail loudly (Python
`min` raises `ValueError` on an empty sequence), but `increment_counter` for
an unregistered id silently no-ops, returning normally with the registry
unchanged. -/
theorem registry_misuse_amended (r : Registry) (name : String)
    (h : containsKey r name = false) :
    minCounterE [] = Except.error "min() arg is an empty sequence" ∧
    incrementCounterE r name = Except.ok r :=
  ⟨rfl, by rw [incrementCounterE, incrementCounter_not_contains r name h]⟩

/-- Witness for C6 amended at a concrete registry without the id. -/
theorem registry_misuse_amended_witness :
    minCounterE [] = Except.error "min() arg is an empty sequence" ∧
    incrementCounterE [("b", 1)] "a" = Except.ok [("b", 1)] :=
  registry_misuse_amended [("b", 1)] "a" (by decide)

/-- C7 counterexample: an operation sequence that re-registers an id does
decrease its count — after `add_counter a; increment_counter a` the count of
a is 1, and a second `add_counter a` resets it to 0. -/
theorem count_decrease_cex :
    getCounter (incrementCounter (addCounter [] "a") "a") "a" = 1 ∧
    getCounter (addCounter (incrementCounter (addCounter [] "a") "a") "a") "a" = 0 := by
  decide

lemma applyOps_mono (ops : List RegOp) : ∀ (r : Registry) (name : String) (v : Nat),
    freshAdds r ops = true → lookupCounter r name = some v →
    ∃ v2 : Nat, v ≤ v2 ∧ lookupCounter (applyOps r ops) name = some v2 := by
  induction ops with
  | nil => exact fun r name v _ hv => ⟨v, le_refl v, hv⟩
  | cons op rest ih =>
    intro r name v hfresh hv
    cases op with
    | add f =>
      rw [freshAdds, Bool.and_eq_true, Bool.not_eq_true'] at hfresh
      obtain ⟨hf, hrest⟩ := hfresh
      have hv2 : lookupCounter (addCounter r f) name = some v := by
        rw [addCounter, dictSet_not_contains r f 0 hf]
        exact lookupCounter_append_left r _ name v hv
      obtain ⟨v2, hle2, hv3⟩ := ih (addCounter r f) name v hrest hv2
      exact ⟨v2, hle2, by rwa [applyOps, applyOp]⟩
    | inc m =>
      rw [freshAdds] at hfresh
      by_cases hm : name = m
      · subst hm
        obtain ⟨v2, hle2, hv3⟩ := ih (incrementCounter r name) name (v + 1) hfresh
          (lookupCounter_incrementCounter_self r name v hv)
        exact ⟨v2, by omega, by rwa [applyOps, applyOp]⟩
      · obtain ⟨v2, hle2, hv3⟩ := ih (incrementCounter r m) name v hfresh
          (by rw [lookupCounter_incrementCounter_other r m name hm]; exact hv)
        exact ⟨v2, hle2, by rwa [applyOps, applyOp]⟩

/-- C7 amended: along any operation sequence that never calls `add_counter`
on an already-registered id (the intended use, since ids are fresh uuids),
every registered count is non-decreasing, and `increment_counter` adds
exactly 1 to the named id. -/
theorem counts_monotone (r : Registry) (ops : List RegOp) (name : String) (v : Nat)
    (hfresh : freshAdds r ops = true) (hv : lookupCounter r name = some v) :
    (∃ v2 : Nat, v ≤ v2 ∧ lookupCounter (applyOps r ops) name = some v2) ∧
    lookupCounter (incrementCounter r name) name = some (v + 1) :=
  ⟨applyOps_mono ops r name v hfresh hv,
   lookupCounter_incrementCounter_self r name v hv⟩

/-- Witness for C7 amended on a concrete fresh-add operation sequence. -/
theorem counts_monotone_witness :
    (∃ v2 : Nat, 1 ≤ v2 ∧
      lookupCounter (applyOps [("a", 1)] [RegOp.add "b", RegOp.inc "a"]) "a" = some v2) ∧
    lookupCounter (incrementCounter [("a", 1)] "a") "a" = some (1 + 1) :=
  counts_monotone [("a", 1)] [RegOp.add "b", RegOp.inc "a"] "a" 1 (by decide) (by decide)

lemma dedup_eq_singleton_iff (l : List Nat) (v : Nat) :
    l.dedup = [v] ↔ l ≠ [] ∧ ∀ x ∈ l, x = v := by
  constructor
  · intro h
    constructor
    · intro hl; subst hl; simp at h
    · intro x hx
      have hxd : x ∈ l.dedup := List.mem_dedup.mpr hx
      rw [h] at hxd
      simpa using hxd
  · rintro ⟨hne, hall⟩
    have hnd : l.dedup.Nodup := l.nodup_dedup
    have hmem : ∀ x ∈ l.dedup, x = v := fun x hx => hall x (List.mem_dedup.mp hx)
    have hdne : l.dedup ≠ [] := by
      intro h0
      exact hne ((List.dedup_eq_nil l).mp h0)
    cases hd : l.dedup with
    | nil => exact absurd hd hdne
    | cons a tail =>
      rw [hd] at hnd hmem
      have ha : a = v := hmem a (List.mem_cons_self a tail)
      have htail : tail = [] := by
        by_contra ht
        obtain ⟨b, hb⟩ := List.exists_mem_of_ne_nil tail ht
        have hbv : b = v := hmem b (List.mem_cons_of_mem a hb)
        have hab : a = b := by rw [ha, hbv]
        exact (List.nodup_cons.mp hnd).1 (hab ▸ hb)
      rw [ha, htail]

/-- C8: `values_balanced` returns true iff all registered counts are equal
and the common value is greater than zero; in particular it is false on the
empty registry and false when any two counts differ. -/
theorem valuesBalanced_iff (r : Registry) :
    valuesBalanced r = true ↔ r ≠ [] ∧ ∃ v : Nat, 0 < v ∧ ∀ p ∈ r, p.2 = v := by
  constructor
  · intro h
    rw [valuesBalanced] at h
    split at h
    next v heq =>
      obtain ⟨hlne, hall⟩ := (dedup_eq_singleton_iff _ v).mp heq
      refine ⟨?_, v, of_decide_eq_true h, ?_⟩
      · intro h0; subst h0; simp at hlne
      · intro p hp; exact hall p.2 (List.mem_map_of_mem Prod.snd hp)
    next => exact absurd h (by simp)
  · rintro ⟨hne, v, hv, hall⟩
    have hd : (r.map Prod.snd).dedup = [v] := by
      rw [dedup_eq_singleton_iff]
      refine ⟨?_, ?_⟩
      · simpa [List.map_eq_nil_iff] using hne
      · intro x hx
        obtain ⟨p, hp, hpx⟩ := List.mem_map.mp hx
        rw [← hpx]
        exact hall p hp
    rw [valuesBalanced, hd]
    simpa using hv

/-- C9: `min_counter` raises (Python `min` over the empty key sequence)
exactly on the empty registry, and never returns normally there. -/
theorem minCounter_empty_raises (r : Registry) :
    minCounterE r = Except.error "min() arg is an empty sequence" ↔ r = [] := by
  cases r with
  | nil => simp [minCounterE, minCounter, minPair]
  | cons p rest =>
    have hs : ∃ q : String × Nat, minPair (p :: rest) = some q := by
      cases hmp : minPair rest with
      | none => exact ⟨p, by simp [minPair, hmp]⟩
      | some q =>
        by_cases hc : p.2 ≤ q.2
        · exact ⟨p, by simp [minPair, hmp, hc]⟩
        · exact ⟨q, by simp [minPair, hmp, hc]⟩
    obtain ⟨q, hq⟩ := hs
    simp [minCounterE, minCounter, hq]

/-- C10: `increment_counter` changes at most the entry of the named id —
the key sequence and every other id count are unchanged — and
`get_all_values` returns a copy equal to the registry (the read methods are
embedded as pure functions of the registry: they perform no assignment). -/
theorem frame_conditions (r : Registry) (name k : String) (hk : k ≠ name) :
    (incrementCounter r name).map Prod.fst = r.map Prod.fst ∧
    lookupCounter (incrementCounter r name) k = lookupCounter r k ∧
    getAllValues r = r :=
  ⟨incrementCounter_keys r name,
   lookupCounter_incrementCounter_other r name k hk, rfl⟩

/-- Witness for C10 at a concrete registry. -/
theorem frame_conditions_witness :
    (incrementCounter [("a", 1), ("b", 2)] "a").map Prod.fst =
      [("a", 1), ("b", 2)].map Prod.fst ∧
    lookupCounter (incrementCounter [("a", 1), ("b", 2)] "a") "b" =
      lookupCounter [("a", 1), ("b", 2)] "b" ∧
    getAllValues [("a", 1), ("b", 2)] = [("a", 1), ("b", 2)] :=
  frame_conditions [("a", 1), ("b", 2)] "a" "b" (by decide)

lemma minPair_cons (p : String × Nat) (rest : Registry) :
    minPair (p :: rest) = match minPair rest with
      | none => some p
      | some q => if p.2 ≤ q.2 then some p else some q := rfl

lemma incrementCounter_cons (k : String) (v : Nat) (rest : Registry) (name : String) :
    incrementCounter ((k, v) :: rest) name =
      if k = name then (k, v + 1) :: rest else (k, v) :: incrementCounter rest name := rfl

lemma minPair_map_const (q : Nat) (l : List String) (h : l ≠ []) :
    minPair (l.map (fun nm => (nm, q))) = some (l.head h, q) := by
  induction l with
  | nil => exact absurd rfl h
  | cons a rest ih =>
    rcases eq_or_ne rest [] with hrest | hrest
    · subst hrest; rfl
    · show minPair ((a, q) :: rest.map (fun nm => (nm, q))) = some ((a :: rest).head h, q)
      rw [minPair_cons, ih hrest]
      show (if q ≤ q then some (a, q) else some (rest.head hrest, q)) = some ((a :: rest).head h, q)
      rw [if_pos (le_refl q)]
      rfl

lemma minPair_mkReg (q : Nat) (hi lo : List String) (h : lo ≠ []) :
    minPair (mkReg q hi lo) = some (lo.head h, q) := by
  induction hi with
  | nil =>
    show minPair (lo.map (fun nm => (nm, q))) = some (lo.head h, q)
    exact minPair_map_const q lo h
  | cons a hi2 ih =>
    show minPair ((a, q + 1) :: mkReg q hi2 lo) = some (lo.head h, q)
    rw [minPair_cons, ih]
    show (if q + 1 ≤ q then some (a, q + 1) else some (lo.head h, q)) = some (lo.head h, q)
    exact if_neg (by omega)

lemma incrementCounter_append_not_mem (l1 l2 : Registry) (name : String)
    (h : ∀ p ∈ l1, p.1 ≠ name) :
    incrementCounter (l1 ++ l2) name = l1 ++ incrementCounter l2 name := by
  induction l1 with
  | nil => rfl
  | cons p rest ih =>
    obtain ⟨k, v⟩ := p
    have hk : k ≠ name := h (k, v) (List.mem_cons_self _ _)
    show incrementCounter ((k, v) :: (rest ++ l2)) name = _
    rw [incrementCounter_cons, if_neg hk, ih (fun p hp => h p (List.mem_cons_of_mem _ hp))]
    rfl

lemma grantStep_mkReg (q : Nat) (hi : List String) (nm : String) (lo2 : List String)
    (hmem : nm ∉ hi) :
    grantStep (mkReg q hi (nm :: lo2)) = mkReg q (hi ++ [nm]) lo2 := by
  have hmin : minCounter (mkReg q hi (nm :: lo2)) = some nm := by
    rw [minCounter, minPair_mkReg q hi _ (by simp)]
    rfl
  unfold grantStep
  rw [hmin]
  have hpre : ∀ p ∈ hi.map (fun nm2 => (nm2, q + 1)), p.1 ≠ nm := by
    intro p hp
    obtain ⟨x, hx, hpx⟩ := List.mem_map.mp hp
    rw [← hpx]
    intro hc
    exact hmem (hc ▸ hx)
  show incrementCounter
      (hi.map (fun nm2 => (nm2, q + 1)) ++ ((nm, q) :: lo2.map (fun nm2 => (nm2, q)))) nm =
    mkReg q (hi ++ [nm]) lo2
  rw [incrementCounter_append_not_mem _ _ _ hpre, incrementCounter_cons, if_pos rfl]
  show _ = (hi ++ [nm]).map (fun nm2 => (nm2, q + 1)) ++ lo2.map (fun nm2 => (nm2, q))
  rw [List.map_append]
  simp

lemma getElem_not_mem_take (l : List String) (hl : l.Nodup) (i : Nat) (h : i < l.length) :
    l[i] ∉ l.take i := by
  intro hmem
  have h2 : (l.take i ++ l.drop i).Nodup := by rwa [List.take_append_drop]
  rw [List.nodup_append] at h2
  have hd : l[i] ∈ l.drop i := by
    rw [List.drop_eq_getElem_cons h]
    exact List.mem_cons_self _ _
  exact h2.2.2 hmem hd

lemma grant_iter_formula (names : List String) (hnd : names.Nodup) (hne : names ≠ []) :
    ∀ (m q rem : Nat), rem < names.length → m = q * names.length + rem →
      grantStep^[m] (regInit names) = mkReg q (names.take rem) (names.drop rem) := by
  intro m
  induction m using Nat.strong_induction_on with
  | _ m ih =>
    intro q rem hrem hm
    cases m with
    | zero =>
      obtain ⟨hq0, hr0⟩ := Nat.add_eq_zero.mp hm.symm
      have hlen : 0 < names.length := List.length_pos.mpr hne
      have hq : q = 0 := by
        rcases Nat.mul_eq_zero.mp hq0 with h0 | h0
        · exact h0
        · omega
      subst hq; subst hr0
      simp [regInit, mkReg]
    | succ m2 =>
      have hlen : 0 < names.length := List.length_pos.mpr hne
      cases rem with
      | zero =>
        have hq : q ≠ 0 := by rintro rfl; simp at hm
        obtain ⟨q2, rfl⟩ : ∃ q2, q = q2 + 1 := ⟨q - 1, by omega⟩
        have hmul : m2 + 1 = q2 * names.length + names.length := by rw [hm]; ring
        have hm2 : m2 = q2 * names.length + (names.length - 1) := by omega
        have hrem2 : names.length - 1 < names.length := by omega
        have hstate := ih m2 (by omega) q2 (names.length - 1) hrem2 hm2
        rw [Function.iterate_succ_apply', hstate]
        have hd : names.drop (names.length - 1) = [names[names.length - 1]] := by
          rw [List.drop_eq_getElem_cons hrem2,
            show names.length - 1 + 1 = names.length by omega, List.drop_length]
        rw [hd, grantStep_mkReg q2 _ _ _ (getElem_not_mem_take names hnd _ hrem2)]
        have htk : names.take (names.length - 1) ++ [names[names.length - 1]] = names := by
          have hc := List.take_concat_get names (names.length - 1) hrem2
          rw [List.concat_eq_append] at hc
          rw [hc, show names.length - 1 + 1 = names.length by omega, List.take_length]
        rw [htk]
        simp [mkReg]
      | succ r2 =>
        have hr2 : r2 < names.length := by omega
        have hm2 : m2 = q * names.length + r2 := by omega
        have hstate := ih m2 (by omega) q r2 hr2 hm2
        rw [Function.iterate_succ_apply', hstate]
        rw [List.drop_eq_getElem_cons hr2,
          grantStep_mkReg q _ _ _ (getElem_not_mem_take names hnd _ hr2)]
        have htk : names.take r2 ++ [names[r2]] = names.take (r2 + 1) := by
          have hc := List.take_concat_get names r2 hr2
          rwa [List.concat_eq_append] at hc
        rw [htk]

/-- C2: in every state reachable by iterating the grant step (each grant
goes to the registry minimum, first-registered on ties, and increments it)
from the all-zero registry of distinct actors, any two counts differ by at
most 1, and after k·n completed turns over n actors every count equals k. -/
theorem turn_grant_fair (names : List String) (hnd : names.Nodup) (hne : names ≠ []) :
    (∀ s : Nat, ∀ p ∈ grantStep^[s] (regInit names), ∀ p2 ∈ grantStep^[s] (regInit names),
      p.2 ≤ p2.2 + 1) ∧
    (∀ k : Nat, ∀ p ∈ grantStep^[k * names.length] (regInit names), p.2 = k) := by
  have hlen : 0 < names.length := List.length_pos.mpr hne
  constructor
  · intro s p hp p2 hp2
    have hform := grant_iter_formula names hnd hne s (s / names.length) (s % names.length)
      (Nat.mod_lt _ hlen) (by rw [Nat.mul_comm]; exact (Nat.div_add_mod s names.length).symm)
    rw [hform] at hp hp2
    have hv : ∀ p3 ∈ mkReg (s / names.length) (names.take (s % names.length))
        (names.drop (s % names.length)),
        p3.2 = s / names.length ∨ p3.2 = s / names.length + 1 := by
      intro p3 hp3
      rcases List.mem_append.mp hp3 with h3 | h3
      · obtain ⟨x, _, hx⟩ := List.mem_map.mp h3
        right
        rw [← hx]
      · obtain ⟨x, _, hx⟩ := List.mem_map.mp h3
        left
        rw [← hx]
    rcases hv p hp with h1 | h1 <;> rcases hv p2 hp2 with h2 | h2 <;> omega
  · intro k p hp
    have hform := grant_iter_formula names hnd hne (k * names.length) k 0 hlen (by ring)
    rw [hform] at hp
    have hp2 : p ∈ names.map (fun nm => (nm, k)) := by simpa [mkReg] using hp
    obtain ⟨x, _, hx⟩ := List.mem_map.mp hp2
    rw [← hx]

/-- Witness for C2 with two actors, after 3 turns and after one round. -/
theorem turn_grant_fair_witness :
    (("a", 2) : String × Nat).2 ≤ (("b", 1) : String × Nat).2 + 1 ∧
    (("a", 2) : String × Nat).2 = 2 :=
  ⟨(turn_grant_fair ["a", "b"] (by decide) (by decide)).1 3 ("a", 2) (by decide)
      ("b", 1) (by decide),
   (turn_grant_fair ["a", "b"] (by decide) (by decide)).2 2 ("a", 2) (by decide)⟩

lemma isInCS_eq (ws : WorkerSt) : isInCS ws = phaseInCS ws.phase := rfl

lemma update_pointwise {n : Nat} (w : Fin n → WorkerSt) (i : Fin n) (v : WorkerSt)
    (hv : isInCS v = isInCS (w i)) (j : Fin n) :
    isInCS (Function.update w i v j) = isInCS (w j) := by
  by_cases hj : j = i
  · subst hj
    rw [Function.update_same, hv]
  · rw [Function.update_noteq hj]

lemma inv_pointwise {n : Nat} {s s2 : Sys n} (hs : MutexInv s)
    (hw : ∀ j, isInCS (s2.w j) = isInCS (s.w j))
    (hwait : s2.wait = s.wait) (hst : s2.started = s.started) : MutexInv s2 := by
  obtain ⟨h1, h2, h3⟩ := hs
  refine ⟨fun i j hi hj => h1 i j ((hw i) ▸ hi) ((hw j) ▸ hj), ?_, ?_⟩
  · rintro ⟨i, hi⟩
    rw [hwait]
    exact h2 ⟨i, (hw i) ▸ hi⟩
  · intro h
    obtain ⟨ha, hb⟩ := h3 (hst ▸ h)
    exact ⟨hwait.trans ha, fun i => (hw i).trans (hb i)⟩

lemma init_inv {n : Nat} (names : Fin n → String) : MutexInv (initSys names) := by
  refine ⟨?_, ?_, ?_⟩
  · intro i j hi
    simp [initSys, isInCS, phaseInCS] at hi
  · rintro ⟨i, hi⟩
    simp [initSys, isInCS, phaseInCS] at hi
  · intro _
    exact ⟨rfl, fun i => rfl⟩

lemma step_inv {n : Nat} {names : Fin n → String} {s s2 : Sys n}
    (hs : MutexInv s) (hstep : Step names s s2) : MutexInv s2 := by
  cases hstep with
  | checkTrue i hph hkr =>
    refine inv_pointwise hs
      (fun j => update_pointwise s.w i ⟨Phase.waiting, (s.w i).active⟩ ?_ j) rfl rfl
    simp [isInCS_eq, hph, phaseInCS]
  | checkFalse i hph hkr =>
    refine inv_pointwise hs
      (fun j => update_pointwise s.w i ⟨Phase.done, (s.w i).active⟩ ?_ j) rfl rfl
    simp [isInCS_eq, hph, phaseInCS]
  | sleepDone i hph =>
    refine inv_pointwise hs
      (fun j => update_pointwise s.w i ⟨Phase.checking, (s.w i).active⟩ ?_ j) rfl rfl
    simp [isInCS_eq, hph, phaseInCS]
  | toggle i hph =>
    refine inv_pointwise hs
      (fun j => update_pointwise s.w i ⟨Phase.releasing, !(s.w i).active⟩ ?_ j) rfl rfl
    simp [isInCS_eq, hph, phaseInCS]
  | claim i hph hw hmin =>
    obtain ⟨h1, h2, h3⟩ := hs
    have hnone : ∀ j, isInCS (s.w j) = false := by
      intro j
      cases hb : isInCS (s.w j) with
      | false => rfl
      | true =>
        have hcontra := h2 ⟨j, hb⟩
        rw [hw] at hcontra
        exact absurd hcontra (by simp)
    refine ⟨?_, ?_, ?_⟩
    · intro a b ha hb
      have ha2 : isInCS (Function.update s.w i ⟨Phase.critical, (s.w i).active⟩ a) = true := ha
      have hb2 : isInCS (Function.update s.w i ⟨Phase.critical, (s.w i).active⟩ b) = true := hb
      by_cases hai : a = i
      · by_cases hbi : b = i
        · rw [hai, hbi]
        · rw [Function.update_noteq hbi, hnone b] at hb2
          exact absurd hb2 (by simp)
      · rw [Function.update_noteq hai, hnone a] at ha2
        exact absurd ha2 (by simp)
    · intro _
      rfl
    · intro hstF
      have hsf : s.started = false := hstF
      obtain ⟨hw1, _⟩ := h3 hsf
      rw [hw] at hw1
      exact absurd hw1 (by simp)
  | release i hph =>
    obtain ⟨h1, h2, h3⟩ := hs
    have hi : isInCS (s.w i) = true := by rw [isInCS_eq, hph]; rfl
    have hall : ∀ j, isInCS (Function.update s.w i ⟨Phase.sleeping, (s.w i).active⟩ j) = false := by
      intro j
      by_cases hj : j = i
      · subst hj
        rw [Function.update_same]
        rfl
      · rw [Function.update_noteq hj]
        cases hb : isInCS (s.w j) with
        | false => rfl
        | true => exact absurd (h1 j i hb hi) hj
    refine ⟨?_, ?_, ?_⟩
    · intro a b ha hb
      have ha2 : isInCS (Function.update s.w i ⟨Phase.sleeping, (s.w i).active⟩ a) = true := ha
      rw [hall a] at ha2
      exact absurd ha2 (by simp)
    · rintro ⟨j, hj⟩
      have hj2 : isInCS (Function.update s.w i ⟨Phase.sleeping, (s.w i).active⟩ j) = true := hj
      rw [hall j] at hj2
      exact absurd hj2 (by simp)
    · intro hstF
      have hsf : s.started = false := hstF
      obtain ⟨_, hnone⟩ := h3 hsf
      rw [hnone i] at hi
      exact absurd hi (by simp)
  | handshake hst =>
    obtain ⟨h1, h2, h3⟩ := hs
    obtain ⟨hw1, hnone⟩ := h3 hst
    refine ⟨?_, ?_, ?_⟩
    · intro a b ha hb
      have ha2 : isInCS (s.w a) = true := ha
      rw [hnone a] at ha2
      exact absurd ha2 (by simp)
    · rintro ⟨j, hj⟩
      have hj2 : isInCS (s.w j) = true := hj
      rw [hnone j] at hj2
      exact absurd hj2 (by simp)
    · intro hstF
      have hcontra : (true : Bool) = false := hstF
      exact absurd hcontra (by simp)
  | shutdown hkr =>
    exact inv_pointwise hs (fun j => rfl) rfl rfl

lemma reachable_inv {n : Nat} {names : Fin n → String} {s : Sys n}
    (h : Reachable names s) : MutexInv s := by
  induction h with
  | refl => exact init_inv names
  | tail hab hbc ih => exact step_inv ih hbc

/-- C1: in every reachable state of the pool, at most one worker is inside
its critical region (from the successful return of `__waiting` to the
completion of `__release_wait_flag`, the region containing the toggle of its
activity state), so the critical steps of two distinct workers never
overlap. -/
theorem mutual_exclusion {n : Nat} (names : Fin n → String) (s : Sys n)
    (hreach : Reachable names s) (i j : Fin n) (hij : i ≠ j) :
    ¬(isInCS (s.w i) = true ∧ isInCS (s.w j) = true) := fun ⟨hi, hj⟩ =>
  hij ((reachable_inv hreach).1 i j hi hj)

/-- Witness for C1 at the reachable initial state of a two-worker pool. -/
theorem mutual_exclusion_witness :
    ¬(isInCS ((initSys names2).w 0) = true ∧ isInCS ((initSys names2).w 1) = true) :=
  mutual_exclusion names2 (initSys names2) Relation.ReflTransGen.refl 0 1 (by decide)

lemma reach_eq {n : Nat} {names : Fin n → String} {a b c : Sys n}
    (h : Relation.ReflTransGen (Step names) a b) (heq : b = c) :
    Relation.ReflTransGen (Step names) a c := heq ▸ h

lemma stuck3_reachable : Reachable names3 stuck3 := by
  exact reach_eq (Relation.ReflTransGen.head (Step.handshake _ rfl)
      (.head (Step.checkTrue _ 0 (by decide) (by decide))
      (.head (Step.claim _ 0 (by decide) (by decide) (by decide))
      (.head (Step.toggle _ 0 (by decide))
      (.head (Step.release _ 0 (by decide))
      (.head (Step.checkTrue _ 1 (by decide) (by decide))
      (.head (Step.claim _ 1 (by decide) (by decide) (by decide))
      (.head (Step.toggle _ 1 (by decide))
      (.head (Step.release _ 1 (by decide))
      (.head (Step.checkTrue _ 2 (by decide) (by decide))
      (.head (Step.claim _ 2 (by decide) (by decide) (by decide))
      (.head (Step.toggle _ 2 (by decide))
      (.head (Step.release _ 2 (by decide))
      (.head (Step.sleepDone _ 1 (by decide))
      (.head (Step.checkTrue _ 1 (by decide) (by decide))
      (.head (Step.sleepDone _ 2 (by decide))
      (.head (Step.checkTrue _ 2 (by decide) (by decide))
      (.head (Step.shutdown _ (by decide))
      (.head (Step.sleepDone _ 0 (by decide))
      (.head (Step.checkFalse _ 0 (by decide) (by decide))
      .refl))))))))))))))))))))
    (by decide)

lemma stuck3_stuck : ∀ s2 : Sys 3, ¬ Step names3 stuck3 s2 := by
  intro s2 h
  cases h with
  | checkTrue i hph hkr => exact absurd hkr (by decide)
  | checkFalse i hph hkr => fin_cases i <;> exact absurd hph (by decide)
  | claim i hph hw hmin =>
    fin_cases i
    · exact absurd hph (by decide)
    · exact absurd hmin (by decide)
    · exact absurd hmin (by decide)
  | toggle i hph => fin_cases i <;> exact absurd hph (by decide)
  | release i hph => fin_cases i <;> exact absurd hph (by decide)
  | sleepDone i hph => fin_cases i <;> exact absurd hph (by decide)
  | handshake hst => exact absurd hst (by decide)
  | shutdown hkr => exact absurd hkr (by decide)

/-- C3 is violated by the code: a reachable execution of a three-worker pool
ends in a state where shutdown was requested, worker a exited while holding
the registry minimum, and workers b and c are parked in `condition.wait()`
inside `__waiting` with no enabled step at all — `handle_sigint` performs no
`notify_all`, and even a woken worker would fail the priority check forever,
so the workers never terminate and joining them hangs. -/
theorem shutdown_join_hangs :
    Reachable names3 stuck3 ∧
    stuck3.keepRunning = false ∧
    (stuck3.w 0).phase = Phase.done ∧
    (stuck3.w 1).phase = Phase.waiting ∧
    (stuck3.w 2).phase = Phase.waiting ∧
    minCounter stuck3.reg = some (names3 0) ∧
    ∀ s2 : Sys 3, ¬ Step names3 stuck3 s2 :=
  ⟨stuck3_reachable, rfl, by decide, by decide, by decide, by decide, stuck3_stuck⟩

end ThreadSync
